import Mathlib

/-!
Verification of the coordinate-mapping, selection, rendering-size and swap
logic of the PyTools multi-image comparison tool (core/ClearView.py and
core/ImageSwap.py).

The Python/Qt data types are shallowly embedded:

* `QPoint`, `QImage`, `QRect` become `QPointE`, `QImageE`, `QRectE`.
  Qt's `QRect` stores the corner coordinates `x1, y1, x2, y2`; its
  `width()` is `x2 - x1 + 1`, the `QRect(x, y, w, h)` constructor sets
  `x2 = x + w - 1`, the two-point constructor stores the points verbatim,
  and `normalized()` swaps a coordinate pair only when `x2 < x1 - 1`
  (these are the exact Qt5 semantics the Python code relies on).
* Python `float` arithmetic is modelled by exact rationals `ℚ`;
  Python's `int(...)` conversion (truncation toward zero) is `truncQ`.
* The mutable `ImageViewer` state is the record `ViewerState`; methods
  become state-transition functions.  Status-bar reporting is modelled
  by an `Option String` result where a claim depends on it; image
  decoding (`QImage(file_path)`) is external and modelled by an
  `Option QImageE` argument (`none` = decode failure).
-/

namespace PyTools

/-- Python `int(q)` on a real value: truncation toward zero. -/
def truncQ (q : ℚ) : Int := if 0 ≤ q then ⌊q⌋ else ⌈q⌉

structure QPointE where
  x : Int
  y : Int
  deriving DecidableEq

/-- A decoded image: intrinsic size plus an abstract pixel buffer. -/
structure QImageE where
  width : Int
  height : Int
  data : List Int
  deriving DecidableEq

/-- Qt5 QRect: stored as the two corner coordinates. -/
structure QRectE where
  x1 : Int
  y1 : Int
  x2 : Int
  y2 : Int
  deriving DecidableEq

def QRectE.left (r : QRectE) : Int := r.x1

def QRectE.top (r : QRectE) : Int := r.y1

def QRectE.right (r : QRectE) : Int := r.x2

def QRectE.bottom (r : QRectE) : Int := r.y2

/-- Qt5: `width() = x2 - x1 + 1`. -/
def QRectE.width (r : QRectE) : Int := r.x2 - r.x1 + 1

/-- Qt5: `height() = y2 - y1 + 1`. -/
def QRectE.height (r : QRectE) : Int := r.y2 - r.y1 + 1

/-- The `QRect(x, y, w, h)` constructor. -/
def QRectE.mk4 (x y w h : Int) : QRectE := ⟨x, y, x + w - 1, y + h - 1⟩

/-- The `QRect(topLeft, bottomRight)` constructor. -/
def QRectE.fromPoints (p1 p2 : QPointE) : QRectE := ⟨p1.x, p1.y, p2.x, p2.y⟩

/-- The default-constructed `QRect()` (the null rectangle). -/
def QRectE.nullRect : QRectE := ⟨0, 0, -1, -1⟩

def QRectE.topLeft (r : QRectE) : QPointE := ⟨r.x1, r.y1⟩

def QRectE.bottomRight (r : QRectE) : QPointE := ⟨r.x2, r.y2⟩

/-- Qt5 `QRect::normalized()`: swap the x (resp. y) pair only when
`x2 < x1 - 1` (resp. `y2 < y1 - 1`). -/
def QRectE.normalized (r : QRectE) : QRectE :=
  let xs : Int × Int := if r.x2 < r.x1 - 1 then (r.x2, r.x1) else (r.x1, r.x2)
  let ys : Int × Int := if r.y2 < r.y1 - 1 then (r.y2, r.y1) else (r.y1, r.y2)
  ⟨xs.1, ys.1, xs.2, ys.2⟩

/-- `ImageViewer.scalePoint(point, image, pixmap_rect)`
(core/ClearView.py, lines 695-722): convert a point from label
coordinates to image coordinates.  `image` is `none` when no image is
loaded (Python `not image`). -/
def scalePoint (point : QPointE) (image : Option QImageE) (pixmap_rect : QRectE) :
    Int × Int :=
  match image with
  | none => (0, 0)
  | some img =>
    if pixmap_rect.width = 0 ∨ pixmap_rect.height = 0 then (0, 0)
    else
      let adjusted_x : Int := point.x - pixmap_rect.left
      let adjusted_y : Int := point.y - pixmap_rect.top
      let adj : Int × Int :=
        if adjusted_x < 0 ∨ pixmap_rect.width < adjusted_x ∨
            adjusted_y < 0 ∨ pixmap_rect.height < adjusted_y then
          (max 0 (min adjusted_x pixmap_rect.width),
           max 0 (min adjusted_y pixmap_rect.height))
        else (adjusted_x, adjusted_y)
      let scale_x : ℚ := (img.width : ℚ) / (pixmap_rect.width : ℚ)
      let scale_y : ℚ := (img.height : ℚ) / (pixmap_rect.height : ℚ)
      let image_x : Int := truncQ ((adj.1 : ℚ) * scale_x)
      let image_y : Int := truncQ ((adj.2 : ℚ) * scale_y)
      (max 0 (min image_x (img.width - 1)), max 0 (min image_y (img.height - 1)))

/-- The inverse display mapping used by the renderer
(`drawBoxOnImage`, core/ClearView.py lines 489-491): an image
coordinate is multiplied by `displayRect.dimension / imageSize.dimension`,
truncated with `int(...)`, and offset by the display rect's origin. -/
def toDisplayCoords (ipt : Int × Int) (img : QImageE) (pixmap_rect : QRectE) :
    Int × Int :=
  (truncQ ((ipt.1 : ℚ) * (pixmap_rect.width : ℚ) / (img.width : ℚ)) + pixmap_rect.left,
   truncQ ((ipt.2 : ℚ) * (pixmap_rect.height : ℚ) / (img.height : ℚ)) + pixmap_rect.top)

/-- Claim C1: for every input point, every loaded image with width ≥ 1 and
height ≥ 1, and every display rect, `scalePoint` returns coordinates
`(x, y)` with `0 ≤ x ≤ width - 1` and `0 ≤ y ≤ height - 1`, including for
points outside the display rect. -/
theorem scalePoint_inRange (p : QPointE) (img : QImageE) (pr : QRectE)
    (hw : 1 ≤ img.width) (hh : 1 ≤ img.height) :
    0 ≤ (scalePoint p (some img) pr).1 ∧
      (scalePoint p (some img) pr).1 ≤ img.width - 1 ∧
      0 ≤ (scalePoint p (some img) pr).2 ∧
      (scalePoint p (some img) pr).2 ≤ img.height - 1 := by
  by_cases hc : pr.width = 0 ∨ pr.height = 0
  · simp only [scalePoint, if_pos hc]
    omega
  · simp only [scalePoint, if_neg hc]
    omega

/-- Claim C3: for every input point, if the display rect has zero width or
zero height, or no image is loaded, then `scalePoint` returns exactly
`(0, 0)` without raising an error. -/
theorem scalePoint_degenerate (p : QPointE) (image : Option QImageE) (pr : QRectE)
    (h : pr.width = 0 ∨ pr.height = 0 ∨ image = none) :
    scalePoint p image pr = (0, 0) := by
  match image with
  | none => rfl
  | some img =>
    simp only [scalePoint]
    have h' : pr.width = 0 ∨ pr.height = 0 := by
      rcases h with h | h | h
      · exact Or.inl h
      · exact Or.inr h
      · exact absurd h (by simp)
    rw [if_pos h']

theorem scalePoint_inRange_witness :
    0 ≤ (scalePoint ⟨500, -20⟩ (some ⟨400, 300, []⟩) (QRectE.mk4 10 10 200 150)).1 ∧
      (scalePoint ⟨500, -20⟩ (some ⟨400, 300, []⟩) (QRectE.mk4 10 10 200 150)).1 ≤ 400 - 1 ∧
      0 ≤ (scalePoint ⟨500, -20⟩ (some ⟨400, 300, []⟩) (QRectE.mk4 10 10 200 150)).2 ∧
      (scalePoint ⟨500, -20⟩ (some ⟨400, 300, []⟩) (QRectE.mk4 10 10 200 150)).2 ≤ 300 - 1 :=
  scalePoint_inRange ⟨500, -20⟩ ⟨400, 300, []⟩ (QRectE.mk4 10 10 200 150)
    (by decide) (by decide)

theorem scalePoint_degenerate_witness :
    scalePoint ⟨37, 42⟩ (some ⟨400, 300, []⟩) (QRectE.mk4 10 10 0 150) = (0, 0) :=
  scalePoint_degenerate ⟨37, 42⟩ (some ⟨400, 300, []⟩) (QRectE.mk4 10 10 0 150)
    (by decide)

lemma truncQ_eq_floor {q : ℚ} (h : 0 ≤ q) : truncQ q = ⌊q⌋ := if_pos h

lemma truncQ_nonneg {q : ℚ} (h : 0 ≤ q) : 0 ≤ truncQ q := by
  rw [truncQ_eq_floor h]; exact Int.floor_nonneg.mpr h

lemma truncQ_le {q : ℚ} (h : 0 ≤ q) : (truncQ q : ℚ) ≤ q := by
  rw [truncQ_eq_floor h]; exact Int.floor_le q

lemma lt_truncQ_add_one {q : ℚ} (h : 0 ≤ q) : q < truncQ q + 1 := by
  rw [truncQ_eq_floor h]; exact Int.lt_floor_add_one q

lemma truncQ_lt {q : ℚ} {n : Int} (h0 : 0 ≤ q) (h : q < (n : ℚ)) : truncQ q < n := by
  rw [truncQ_eq_floor h0]; exact Int.floor_lt.mpr h

lemma le_truncQ {n : Int} {q : ℚ} (h0 : 0 ≤ q) (h : (n : ℚ) ≤ q) : n ≤ truncQ q := by
  rw [truncQ_eq_floor h0]; exact Int.le_floor.mpr h

/-- One axis of the display-to-image-to-display round trip: mapping a
coordinate `a` (relative to the display rect) of a display rect of size `w`
into an image of size `W ≥ w` and back moves it by at most one pixel. -/
lemma roundtrip_axis (a w W : Int) (ha : 0 < a) (haw : a < w) (hwW : w ≤ W) :
    a - 1 ≤ truncQ (((max 0 (min (truncQ ((a : ℚ) * ((W : ℚ) / (w : ℚ)))) (W - 1)) : Int) : ℚ) * (w : ℚ) / (W : ℚ)) ∧
      truncQ (((max 0 (min (truncQ ((a : ℚ) * ((W : ℚ) / (w : ℚ)))) (W - 1)) : Int) : ℚ) * (w : ℚ) / (W : ℚ)) ≤ a := by
  have hw0 : (0 : ℚ) < (w : ℚ) := by exact_mod_cast lt_trans ha haw
  have hW0 : (0 : ℚ) < (W : ℚ) := by
    exact_mod_cast lt_of_lt_of_le (lt_trans ha haw) hwW
  have ha0 : (0 : ℚ) ≤ (a : ℚ) := by exact_mod_cast le_of_lt ha
  set q : ℚ := (a : ℚ) * ((W : ℚ) / (w : ℚ)) with hqdef
  have hq0 : 0 ≤ q := mul_nonneg ha0 (div_nonneg hW0.le hw0.le)
  have hqW : q < (W : ℚ) := by
    have hlt : (a : ℚ) * (W : ℚ) < (w : ℚ) * (W : ℚ) :=
      mul_lt_mul_of_pos_right (by exact_mod_cast haw) hW0
    calc q = (a : ℚ) * (W : ℚ) / (w : ℚ) := by rw [hqdef]; ring
      _ < (W : ℚ) := by rw [div_lt_iff₀ hw0]; linarith
  have hiq : truncQ q < W := truncQ_lt hq0 hqW
  have hi0 : 0 ≤ truncQ q := truncQ_nonneg hq0
  have hclamp : max 0 (min (truncQ q) (W - 1)) = truncQ q := by omega
  rw [hclamp]
  have hiQ_le : ((truncQ q : Int) : ℚ) ≤ q := truncQ_le hq0
  have hq_lt : q < ((truncQ q : Int) : ℚ) + 1 := lt_truncQ_add_one hq0
  have hr0 : 0 ≤ ((truncQ q : Int) : ℚ) * (w : ℚ) / (W : ℚ) :=
    div_nonneg (mul_nonneg (by exact_mod_cast hi0) hw0.le) hW0.le
  have hqback : q * ((w : ℚ) / (W : ℚ)) = (a : ℚ) := by
    rw [hqdef]; field_simp
  constructor
  · apply le_truncQ hr0
    have key : (a : ℚ) < (((truncQ q : Int) : ℚ) + 1) * ((w : ℚ) / (W : ℚ)) := by
      calc (a : ℚ) = q * ((w : ℚ) / (W : ℚ)) := hqback.symm
        _ < (((truncQ q : Int) : ℚ) + 1) * ((w : ℚ) / (W : ℚ)) :=
            mul_lt_mul_of_pos_right hq_lt (div_pos hw0 hW0)
    have hdiv1 : (w : ℚ) / (W : ℚ) ≤ 1 := (div_le_one hW0).mpr (by exact_mod_cast hwW)
    have hlt1 : (a : ℚ) < ((truncQ q : Int) : ℚ) * (w : ℚ) / (W : ℚ) + 1 := by
      have hexp : (((truncQ q : Int) : ℚ) + 1) * ((w : ℚ) / (W : ℚ)) =
          ((truncQ q : Int) : ℚ) * (w : ℚ) / (W : ℚ) + (w : ℚ) / (W : ℚ) := by ring
      rw [hexp] at key
      linarith
    push_cast
    linarith
  · have hra : ((truncQ q : Int) : ℚ) * (w : ℚ) / (W : ℚ) ≤ (a : ℚ) := by
      have h1 : ((truncQ q : Int) : ℚ) * ((w : ℚ) / (W : ℚ)) ≤ q * ((w : ℚ) / (W : ℚ)) :=
        mul_le_mul_of_nonneg_right hiQ_le (div_nonneg hw0.le hW0.le)
      calc ((truncQ q : Int) : ℚ) * (w : ℚ) / (W : ℚ)
          = ((truncQ q : Int) : ℚ) * ((w : ℚ) / (W : ℚ)) := by ring
        _ ≤ q * ((w : ℚ) / (W : ℚ)) := h1
        _ = (a : ℚ) := hqback
    have hfl := truncQ_le hr0
    exact_mod_cast le_trans hfl hra

/-- Claim C2, counterexample: with a 1×1 image shown upscaled in a
100×100 display rect, the pointer position (50,50) is strictly inside
the display rect, yet the round trip through `scalePoint` and the
renderer's inverse scaling lands at (0,0), 50 display pixels away. -/
theorem scalePoint_roundtrip_cex :
    (QRectE.mk4 0 0 100 100).left < 50 ∧
      (50 : Int) < (QRectE.mk4 0 0 100 100).left + (QRectE.mk4 0 0 100 100).width ∧
      toDisplayCoords (scalePoint ⟨50, 50⟩ (some ⟨1, 1, []⟩) (QRectE.mk4 0 0 100 100))
          ⟨1, 1, []⟩ (QRectE.mk4 0 0 100 100) = (0, 0) ∧
      ¬(((toDisplayCoords (scalePoint ⟨50, 50⟩ (some ⟨1, 1, []⟩) (QRectE.mk4 0 0 100 100))
          ⟨1, 1, []⟩ (QRectE.mk4 0 0 100 100)).1 - 50).natAbs ≤ 1) := by
  have h1 : scalePoint ⟨50, 50⟩ (some ⟨1, 1, []⟩) (QRectE.mk4 0 0 100 100) = (0, 0) := by
    norm_num [scalePoint, truncQ, QRectE.mk4, QRectE.width, QRectE.height,
      QRectE.left, QRectE.top]
  have h2 : toDisplayCoords (0, 0) ⟨1, 1, []⟩ (QRectE.mk4 0 0 100 100) = (0, 0) := by
    norm_num [toDisplayCoords, truncQ, QRectE.mk4, QRectE.width, QRectE.height,
      QRectE.left, QRectE.top]
  refine ⟨by decide, by decide, ?_, ?_⟩
  · rw [h1, h2]
  · rw [h1, h2]; decide

/-- Claim C2 (amended): for every pointer position strictly inside the
display rect, provided the image is displayed at or below its native
resolution (`displayRect.width ≤ image.width` and
`displayRect.height ≤ image.height`), converting to image coordinates with
`scalePoint` and back with the renderer's inverse scaling recovers a
position within 1 display pixel of the original on each axis. -/
theorem scalePoint_roundtrip (p : QPointE) (img : QImageE) (pr : QRectE)
    (hx1 : pr.left < p.x) (hx2 : p.x < pr.left + pr.width)
    (hy1 : pr.top < p.y) (hy2 : p.y < pr.top + pr.height)
    (hw : pr.width ≤ img.width) (hh : pr.height ≤ img.height) :
    ((toDisplayCoords (scalePoint p (some img) pr) img pr).1 - p.x).natAbs ≤ 1 ∧
      ((toDisplayCoords (scalePoint p (some img) pr) img pr).2 - p.y).natAbs ≤ 1 := by
  have hcond : ¬((QRectE.width pr) = 0 ∨ (QRectE.height pr) = 0) := by omega
  have hclamp : ¬(p.x - pr.left < 0 ∨ pr.width < p.x - pr.left ∨
      p.y - pr.top < 0 ∨ pr.height < p.y - pr.top) := by omega
  simp only [scalePoint, toDisplayCoords, if_neg hcond, if_neg hclamp]
  have hrx := roundtrip_axis (p.x - pr.left) pr.width img.width
    (by omega) (by omega) hw
  have hry := roundtrip_axis (p.y - pr.top) pr.height img.height
    (by omega) (by omega) hh
  omega

theorem scalePoint_roundtrip_witness :
    ((toDisplayCoords (scalePoint ⟨50, 40⟩ (some ⟨100, 100, []⟩) (QRectE.mk4 0 0 100 100))
        ⟨100, 100, []⟩ (QRectE.mk4 0 0 100 100)).1 - 50).natAbs ≤ 1 ∧
      ((toDisplayCoords (scalePoint ⟨50, 40⟩ (some ⟨100, 100, []⟩) (QRectE.mk4 0 0 100 100))
        ⟨100, 100, []⟩ (QRectE.mk4 0 0 100 100)).2 - 40).natAbs ≤ 1 :=
  scalePoint_roundtrip ⟨50, 40⟩ ⟨100, 100, []⟩ (QRectE.mk4 0 0 100 100)
    (by decide) (by decide) (by decide) (by decide) (by decide) (by decide)

/-- The selection-rectangle update performed on pointer-move and pointer-up
(`mouseMoveEvent` line 784 and `mouseReleaseEvent` line 790 of
core/ClearView.py): `self.rect = QRect(self.begin, self.end).normalized()`. -/
def dragRect (b e : QPointE) : QRectE := (QRectE.fromPoints b e).normalized

/-- Claim C4, counterexample: the inverted drag corners (10,10)-(5,5)
normalize to the rectangle with top-left (5,5) and bottom-right (10,10),
but its Qt width and height are `right - left + 1 = 6`, not 5 as the claim
states. -/
theorem dragRect_cex :
    (dragRect ⟨10, 10⟩ ⟨5, 5⟩).topLeft = ⟨5, 5⟩ ∧
      (dragRect ⟨10, 10⟩ ⟨5, 5⟩).bottomRight = ⟨10, 10⟩ ∧
      (dragRect ⟨10, 10⟩ ⟨5, 5⟩).width = 6 ∧
      (dragRect ⟨10, 10⟩ ⟨5, 5⟩).height = 6 ∧
      ¬((dragRect ⟨10, 10⟩ ⟨5, 5⟩).width = 5) := by
  decide

/-- Claim C4 (amended): for every pair of drag corners whose coordinates do
not differ by exactly one in the inverted direction (Qt's `normalized()`
leaves `end = begin - 1` pairs unswapped), the selection rectangle produced
on pointer-move and pointer-up has the component-wise minimum as top-left
and the component-wise maximum as bottom-right, and its Qt width and height
are `max - min + 1`; in particular (10,10)-(5,5) normalizes to top-left
(5,5), bottom-right (10,10), with width = 6 and height = 6. -/
theorem dragRect_normalized (b e : QPointE)
    (hx : e.x ≠ b.x - 1) (hy : e.y ≠ b.y - 1) :
    (dragRect b e).left = min b.x e.x ∧ (dragRect b e).top = min b.y e.y ∧
      (dragRect b e).right = max b.x e.x ∧ (dragRect b e).bottom = max b.y e.y ∧
      (dragRect b e).width = max b.x e.x - min b.x e.x + 1 ∧
      (dragRect b e).height = max b.y e.y - min b.y e.y + 1 := by
  simp only [dragRect, QRectE.fromPoints, QRectE.normalized, QRectE.left, QRectE.top,
    QRectE.right, QRectE.bottom, QRectE.width, QRectE.height]
  split_ifs <;> simp only [] <;> omega

theorem dragRect_normalized_witness :
    (dragRect ⟨10, 10⟩ ⟨5, 5⟩).left = min 10 5 ∧ (dragRect ⟨10, 10⟩ ⟨5, 5⟩).top = min 10 5 ∧
      (dragRect ⟨10, 10⟩ ⟨5, 5⟩).right = max 10 5 ∧ (dragRect ⟨10, 10⟩ ⟨5, 5⟩).bottom = max 10 5 ∧
      (dragRect ⟨10, 10⟩ ⟨5, 5⟩).width = max 10 5 - min 10 5 + 1 ∧
      (dragRect ⟨10, 10⟩ ⟨5, 5⟩).height = max 10 5 - min 10 5 + 1 :=
  dragRect_normalized ⟨10, 10⟩ ⟨5, 5⟩ (by decide) (by decide)

/-- The preview-size computation of `drawCroppedImageWithBorder`
(core/ClearView.py, lines 579-601): the target size of the magnified crop
preview, before the 100×100 minimum floor is applied. -/
def previewSizePre (rect_w rect_h label_w label_h : Int) (psf : ℚ) : Int × Int :=
  let max_preview_width : Int := truncQ ((label_w : ℚ) * psf)
  let max_preview_height : Int := truncQ ((label_h : ℚ) * psf)
  let aspect : ℚ := (rect_w : ℚ) / (rect_h : ℚ)
  if 1 < aspect then
    let preview_width : Int := min rect_w max_preview_width
    let preview_height : Int := truncQ ((preview_width : ℚ) / aspect)
    if max_preview_height < preview_height then
      (truncQ ((max_preview_height : ℚ) * aspect), max_preview_height)
    else (preview_width, preview_height)
  else
    let preview_height : Int := min rect_h max_preview_height
    let preview_width : Int := truncQ ((preview_height : ℚ) * aspect)
    if max_preview_width < preview_width then
      (max_preview_width, truncQ ((max_preview_width : ℚ) / aspect))
    else (preview_width, preview_height)

/-- The final preview size (core/ClearView.py, lines 603-605): the minimum
floor `max(·, 100)` applied to each dimension. -/
def previewSize (rect_w rect_h label_w label_h : Int) (psf : ℚ) : Int × Int :=
  let p := previewSizePre rect_w rect_h label_w label_h psf
  (max p.1 100, max p.2 100)

/-- Bounds for the truncated quotient `int(u * v / d)` of nonnegative
integers. -/
lemma truncQ_div_spec (u v d : Int) (hu : 0 ≤ u) (hv : 0 ≤ v) (hd : 0 < d) :
    0 ≤ truncQ ((u : ℚ) * (v : ℚ) / (d : ℚ)) ∧
      truncQ ((u : ℚ) * (v : ℚ) / (d : ℚ)) * d ≤ u * v ∧
      u * v - d < truncQ ((u : ℚ) * (v : ℚ) / (d : ℚ)) * d := by
  have hdQ : (0 : ℚ) < (d : ℚ) := by exact_mod_cast hd
  have hq0 : 0 ≤ (u : ℚ) * (v : ℚ) / (d : ℚ) :=
    div_nonneg (mul_nonneg (by exact_mod_cast hu) (by exact_mod_cast hv)) hdQ.le
  refine ⟨truncQ_nonneg hq0, ?_, ?_⟩
  · have h1 : ((truncQ ((u : ℚ) * (v : ℚ) / (d : ℚ)) : Int) : ℚ) ≤ (u : ℚ) * (v : ℚ) / (d : ℚ) :=
      truncQ_le hq0
    have h2 : ((truncQ ((u : ℚ) * (v : ℚ) / (d : ℚ)) : Int) : ℚ) * (d : ℚ) ≤ (u : ℚ) * (v : ℚ) :=
      (le_div_iff₀ hdQ).mp h1
    exact_mod_cast h2
  · have h1 : (u : ℚ) * (v : ℚ) / (d : ℚ) <
        ((truncQ ((u : ℚ) * (v : ℚ) / (d : ℚ)) : Int) : ℚ) + 1 :=
      lt_truncQ_add_one hq0
    have h2 : (u : ℚ) * (v : ℚ) <
        (((truncQ ((u : ℚ) * (v : ℚ) / (d : ℚ)) : Int) : ℚ) + 1) * (d : ℚ) :=
      (div_lt_iff₀ hdQ).mp h1
    have h3 : (u : ℚ) * (v : ℚ) - (d : ℚ) <
        ((truncQ ((u : ℚ) * (v : ℚ) / (d : ℚ)) : Int) : ℚ) * (d : ℚ) := by nlinarith
    exact_mod_cast h3

/-- The pre-floor preview size never exceeds the user-controlled caps
`int(label * psf)`, and preserves the crop's aspect up to one pixel of
integer truncation (cross-multiplied tolerance). -/
lemma previewSizePre_spec (rw' rh' lw lh : Int) (psf : ℚ)
    (hrw : 0 < rw') (hrh : 0 < rh') (hlw : 0 ≤ lw) (hlh : 0 ≤ lh) (hpsf : 0 ≤ psf) :
    (previewSizePre rw' rh' lw lh psf).1 ≤ truncQ ((lw : ℚ) * psf) ∧
      (previewSizePre rw' rh' lw lh psf).2 ≤ truncQ ((lh : ℚ) * psf) ∧
      -(max rw' rh') < (previewSizePre rw' rh' lw lh psf).1 * rh' -
        (previewSizePre rw' rh' lw lh psf).2 * rw' ∧
      (previewSizePre rw' rh' lw lh psf).1 * rh' -
        (previewSizePre rw' rh' lw lh psf).2 * rw' < max rw' rh' := by
  have hrwQ : (0 : ℚ) < (rw' : ℚ) := by exact_mod_cast hrw
  have hrhQ : (0 : ℚ) < (rh' : ℚ) := by exact_mod_cast hrh
  have hmw0 : 0 ≤ truncQ ((lw : ℚ) * psf) :=
    truncQ_nonneg (mul_nonneg (by exact_mod_cast hlw) hpsf)
  have hmh0 : 0 ≤ truncQ ((lh : ℚ) * psf) :=
    truncQ_nonneg (mul_nonneg (by exact_mod_cast hlh) hpsf)
  simp only [previewSizePre]
  set mw := truncQ ((lw : ℚ) * psf) with hmw
  set mh := truncQ ((lh : ℚ) * psf) with hmh
  by_cases hasp : (1 : ℚ) < (rw' : ℚ) / (rh' : ℚ)
  · rw [if_pos hasp]
    have hrr : rh' < rw' := by exact_mod_cast (one_lt_div hrhQ).mp hasp
    have hmaxeq : max rw' rh' = rw' := max_eq_left (by omega)
    rw [hmaxeq]
    have e1 : ((min rw' mw : Int) : ℚ) / ((rw' : ℚ) / (rh' : ℚ)) =
        ((min rw' mw : Int) : ℚ) * (rh' : ℚ) / (rw' : ℚ) := div_div_eq_mul_div _ _ _
    rw [e1]
    have hb := truncQ_div_spec (min rw' mw) rh' rw' (by omega) (by omega) hrw
    by_cases hcap : mh < truncQ (((min rw' mw : Int) : ℚ) * (rh' : ℚ) / (rw' : ℚ))
    · rw [if_pos hcap]
      have e2 : ((mh : Int) : ℚ) * ((rw' : ℚ) / (rh' : ℚ)) =
          ((mh : Int) : ℚ) * (rw' : ℚ) / (rh' : ℚ) := (mul_div_assoc _ _ _).symm
      rw [e2]
      have hb2 := truncQ_div_spec mh rw' rh' hmh0 (by omega) hrh
      dsimp only
      set t := truncQ (((min rw' mw : Int) : ℚ) * (rh' : ℚ) / (rw' : ℚ)) with ht
      set t2 := truncQ (((mh : Int) : ℚ) * (rw' : ℚ) / (rh' : ℚ)) with ht2
      refine ⟨?_, le_refl _, ?_, ?_⟩
      · have h1 : (mh + 1) * rw' ≤ t * rw' :=
          mul_le_mul_of_nonneg_right (by omega) (by omega)
        have h2 : t2 * rh' < min rw' mw * rh' := by nlinarith [hb.2.1, hb2.2.1]
        have h3 : t2 < min rw' mw := lt_of_mul_lt_mul_right h2 (by omega)
        omega
      · nlinarith [hb2.2.2]
      · nlinarith [hb2.2.1]
    · rw [if_neg hcap]
      dsimp only
      set t := truncQ (((min rw' mw : Int) : ℚ) * (rh' : ℚ) / (rw' : ℚ)) with ht
      refine ⟨by omega, by omega, ?_, ?_⟩
      · nlinarith [hb.2.1]
      · nlinarith [hb.2.2]
  · rw [if_neg hasp]
    have hrr : rw' ≤ rh' := by
      exact_mod_cast (div_le_one hrhQ).mp (not_lt.mp hasp)
    have hmaxeq : max rw' rh' = rh' := max_eq_right (by omega)
    rw [hmaxeq]
    have e1 : ((min rh' mh : Int) : ℚ) * ((rw' : ℚ) / (rh' : ℚ)) =
        ((min rh' mh : Int) : ℚ) * (rw' : ℚ) / (rh' : ℚ) := (mul_div_assoc _ _ _).symm
    rw [e1]
    have hb := truncQ_div_spec (min rh' mh) rw' rh' (by omega) (by omega) hrh
    by_cases hcap : mw < truncQ (((min rh' mh : Int) : ℚ) * (rw' : ℚ) / (rh' : ℚ))
    · rw [if_pos hcap]
      have e2 : ((mw : Int) : ℚ) / ((rw' : ℚ) / (rh' : ℚ)) =
          ((mw : Int) : ℚ) * (rh' : ℚ) / (rw' : ℚ) := div_div_eq_mul_div _ _ _
      rw [e2]
      have hb2 := truncQ_div_spec mw rh' rw' hmw0 (by omega) hrw
      dsimp only
      set t := truncQ (((min rh' mh : Int) : ℚ) * (rw' : ℚ) / (rh' : ℚ)) with ht
      set t3 := truncQ (((mw : Int) : ℚ) * (rh' : ℚ) / (rw' : ℚ)) with ht3
      refine ⟨le_refl _, ?_, ?_, ?_⟩
      · have h1 : (mw + 1) * rh' ≤ t * rh' :=
          mul_le_mul_of_nonneg_right (by omega) (by omega)
        have h2 : t3 * rw' < min rh' mh * rw' := by nlinarith [hb.2.1, hb2.2.1]
        have h3 : t3 < min rh' mh := lt_of_mul_lt_mul_right h2 (by omega)
        omega
      · nlinarith [hb2.2.1]
      · nlinarith [hb2.2.2]
    · rw [if_neg hcap]
      dsimp only
      set t := truncQ (((min rh' mh : Int) : ℚ) * (rw' : ℚ) / (rh' : ℚ)) with ht
      refine ⟨by omega, by omega, ?_, ?_⟩
      · nlinarith [hb.2.2]
      · nlinarith [hb.2.1]

/-- Claim C8: for every selection rectangle with positive width and height
and every panel size, the magnified crop preview of
`drawCroppedImageWithBorder` is scaled to at most `preview_size_factor`
times the panel's width and at most `preview_size_factor` times the panel's
height, subject to a minimum floor of 100×100 device pixels
(`dim ≤ max (int(panel_dim * factor)) 100` for each dimension), and before
that floor is applied the dimensions preserve the crop's aspect up to one
pixel of integer truncation. -/
theorem previewSize_bounds (rw' rh' lw lh : Int) (psf : ℚ)
    (hrw : 0 < rw') (hrh : 0 < rh') (hlw : 0 ≤ lw) (hlh : 0 ≤ lh) (hpsf : 0 ≤ psf) :
    (previewSize rw' rh' lw lh psf).1 ≤ max (truncQ ((lw : ℚ) * psf)) 100 ∧
      (previewSize rw' rh' lw lh psf).2 ≤ max (truncQ ((lh : ℚ) * psf)) 100 ∧
      -(max rw' rh') < (previewSizePre rw' rh' lw lh psf).1 * rh' -
        (previewSizePre rw' rh' lw lh psf).2 * rw' ∧
      (previewSizePre rw' rh' lw lh psf).1 * rh' -
        (previewSizePre rw' rh' lw lh psf).2 * rw' < max rw' rh' := by
  have h := previewSizePre_spec rw' rh' lw lh psf hrw hrh hlw hlh hpsf
  simp only [previewSize]
  exact ⟨by omega, by omega, h.2.2.1, h.2.2.2⟩

theorem previewSize_bounds_witness :
    (previewSize 10 10 200 200 (1/2)).1 ≤ max (truncQ (((200 : Int) : ℚ) * (1/2))) 100 ∧
      (previewSize 10 10 200 200 (1/2)).2 ≤ max (truncQ (((200 : Int) : ℚ) * (1/2))) 100 ∧
      -(max (10 : Int) 10) < (previewSizePre 10 10 200 200 (1/2)).1 * 10 -
        (previewSizePre 10 10 200 200 (1/2)).2 * 10 ∧
      (previewSizePre 10 10 200 200 (1/2)).1 * 10 -
        (previewSizePre 10 10 200 200 (1/2)).2 * 10 < max (10 : Int) 10 :=
  previewSize_bounds 10 10 200 200 (1/2)
    (by norm_num) (by norm_num) (by norm_num) (by norm_num) (by norm_num)

/-- The mutable state of `ImageViewer` (core/ClearView.py, `__init__`)
relevant to the verified operations: the four image slots and their paths,
the shared selection rectangle, the drag corners, the drag-in-progress and
tool-enabled flags, the comparison mode, and the per-panel visibility
recomputed by `setupLayout`. -/
@[ext] structure ViewerState where
  images : Fin 4 → Option QImageE
  image_paths : Fin 4 → String
  rect : QRectE
  dragBegin : Option QPointE
  dragEnd : Option QPointE
  is_drawing : Bool
  can_draw_rect : Bool
  comparison_mode : Int
  labels_visible : Fin 4 → Bool

/-- `ImageViewer.loadImageFromPath(file_path, index)` (core/ClearView.py,
lines 255-272).  Decoding `QImage(file_path)` is delegated to an external
codec and modelled by the `decoded` argument (`none` = `image.isNull()`).
Returns the new state and the boolean result. -/
def loadImageFromPath (s : ViewerState) (decoded : Option QImageE)
    (file_path : String) (index : Int) : ViewerState × Bool :=
  if h : index < 0 ∨ 4 ≤ index then (s, false)
  else
    match decoded with
    | some image =>
        ({ s with
            images := Function.update s.images ⟨index.toNat, by omega⟩ (some image),
            image_paths := Function.update s.image_paths ⟨index.toNat, by omega⟩ file_path,
            rect := QRectE.nullRect }, true)
    | none => (s, false)

/-- `ImageViewer.resetImages` (core/ClearView.py, lines 863-884); the
confirmation dialog is external, its answer is the `confirmed` argument. -/
def resetImages (s : ViewerState) (confirmed : Bool) : ViewerState :=
  if confirmed then
    { s with images := fun _ => none, image_paths := fun _ => "",
             rect := QRectE.nullRect, dragBegin := none, dragEnd := none,
             is_drawing := false }
  else s

/-- `ImageSwapHandler.swap_images(index1, index2)` (core/ImageSwap.py,
lines 250-268).  The returned `Option String` is the status-bar message the
call itself shows (`none` when it shows nothing). -/
def swap_images (s : ViewerState) (index1 index2 : Int) :
    ViewerState × Option String :=
  if index1 = index2 then (s, none)
  else if h : index1 < 0 ∨ 4 ≤ index1 ∨ index2 < 0 ∨ 4 ≤ index2 then (s, none)
  else
    let f1 : Fin 4 := ⟨index1.toNat, by omega⟩
    let f2 : Fin 4 := ⟨index2.toNat, by omega⟩
    if s.images f1 = none ∨ s.images f2 = none then
      (s, some "Cannot swap - one or both panels have no image")
    else
      ({ s with
          images :=
            Function.update (Function.update s.images f1 (s.images f2)) f2 (s.images f1),
          image_paths :=
            Function.update (Function.update s.image_paths f1 (s.image_paths f2)) f2
              (s.image_paths f1) }, none)

/-- `ImageViewer.setupLayout` (core/ClearView.py, lines 306-361) as far as
the modelled state is concerned: panel `i` is visible iff
`i < comparison_mode`. -/
def setupLayout (s : ViewerState) : ViewerState :=
  { s with labels_visible := fun i => decide ((i.val : Int) < s.comparison_mode) }

/-- `ImageViewer.setComparisonMode(mode)` (core/ClearView.py, lines
363-367). -/
def setComparisonMode (s : ViewerState) (mode : Int) : ViewerState :=
  if mode ≠ s.comparison_mode ∧ (mode = 2 ∨ mode = 3 ∨ mode = 4) then
    setupLayout { s with comparison_mode := mode }
  else s

/-- `ImageSelector.onButtonClicked(index, checked)` (core/ImageSwap.py,
lines 48-66), acting on the `selected_indices` list. -/
def onButtonClicked (selected_indices : List Int) (index : Int) (checked : Bool) :
    List Int :=
  if checked then
    if index ∈ selected_indices then selected_indices
    else
      let after_evict :=
        if 2 ≤ selected_indices.length then selected_indices.drop 1
        else selected_indices
      after_evict ++ [index]
  else
    if index ∈ selected_indices then selected_indices.erase index
    else selected_indices

/-- A sample state with images loaded in panels 0 and 1, used by concrete
witnesses and counterexamples. -/
def stateA : ViewerState :=
  { images := fun k =>
      if k.val = 0 then some ⟨8, 8, [1]⟩
      else if k.val = 1 then some ⟨4, 4, [2]⟩ else none,
    image_paths := fun k =>
      if k.val = 0 then "a.png" else if k.val = 1 then "b.png" else "",
    rect := QRectE.mk4 1 1 3 3,
    dragBegin := none, dragEnd := none,
    is_drawing := false, can_draw_rect := false,
    comparison_mode := 2,
    labels_visible := fun k => decide (k.val < 2) }

/-- A sample state in the middle of a drag (`is_drawing = True`). -/
def stateDrag : ViewerState :=
  { images := fun _ => none, image_paths := fun _ => "",
    rect := QRectE.mk4 1 1 3 3,
    dragBegin := some ⟨1, 1⟩, dragEnd := some ⟨2, 2⟩,
    is_drawing := true, can_draw_rect := true,
    comparison_mode := 2,
    labels_visible := fun k => decide (k.val < 2) }

/-- Claim C5, counterexample: a successful `loadImageFromPath` while a drag
is in progress leaves the drag-in-progress flag `True`; it does not force
the drag state machine to Idle as the claim states (only `resetImages`
clears the flag). -/
theorem loadImageFromPath_cex :
    stateDrag.is_drawing = true ∧
      (loadImageFromPath stateDrag (some ⟨8, 8, []⟩) "c.png" 0).2 = true ∧
      (loadImageFromPath stateDrag (some ⟨8, 8, []⟩) "c.png" 0).1.is_drawing = true := by
  refine ⟨rfl, rfl, rfl⟩

/-- Claim C5 (amended): for every panel index in [0,4) and every file path
whose decode succeeds, `loadImageFromPath` stores the image and path at
that index, leaves the other slots unchanged, and clears the selection
rectangle to the empty rectangle, but leaves the drag-in-progress flag
unchanged; a full reset clears all panels and the rectangle and forces the
drag flag to false. -/
theorem loadImageFromPath_spec (s : ViewerState) (img : QImageE) (path : String)
    (i : Int) (fi : Fin 4) (hfi : (fi.val : Int) = i) :
    (loadImageFromPath s (some img) path i).2 = true ∧
      (loadImageFromPath s (some img) path i).1.images fi = some img ∧
      (loadImageFromPath s (some img) path i).1.image_paths fi = path ∧
      (loadImageFromPath s (some img) path i).1.rect = QRectE.nullRect ∧
      (loadImageFromPath s (some img) path i).1.is_drawing = s.is_drawing ∧
      (∀ k : Fin 4, k ≠ fi →
        (loadImageFromPath s (some img) path i).1.images k = s.images k ∧
        (loadImageFromPath s (some img) path i).1.image_paths k = s.image_paths k) ∧
      (∀ k : Fin 4, (resetImages s true).images k = none ∧
        (resetImages s true).image_paths k = "") ∧
      (resetImages s true).rect = QRectE.nullRect ∧
      (resetImages s true).is_drawing = false := by
  have hlt := fi.isLt
  have hrange : ¬(i < 0 ∨ 4 ≤ i) := by omega
  have hvi : i.toNat = fi.val := by omega
  have hfin : (⟨i.toNat, by omega⟩ : Fin 4) = fi := by
    apply Fin.ext
    simpa using hvi
  have hload : loadImageFromPath s (some img) path i =
      ({ s with images := Function.update s.images fi (some img),
                image_paths := Function.update s.image_paths fi path,
                rect := QRectE.nullRect }, true) := by
    simp only [loadImageFromPath, dif_neg hrange]
    rw [hfin]
  rw [hload]
  refine ⟨rfl, ?_, ?_, rfl, rfl, ?_, ?_, ?_, ?_⟩
  · simp [Function.update_apply]
  · simp [Function.update_apply]
  · intro k hk
    constructor <;> simp [Function.update_apply, hk]
  · intro k
    constructor <;> simp [resetImages]
  · simp [resetImages]
  · simp [resetImages]

theorem loadImageFromPath_spec_witness :
    (loadImageFromPath stateA (some ⟨8, 8, []⟩) "c.png" 1).2 = true ∧
      (loadImageFromPath stateA (some ⟨8, 8, []⟩) "c.png" 1).1.images ⟨1, by omega⟩ =
        some ⟨8, 8, []⟩ ∧
      (loadImageFromPath stateA (some ⟨8, 8, []⟩) "c.png" 1).1.image_paths ⟨1, by omega⟩ =
        "c.png" ∧
      (loadImageFromPath stateA (some ⟨8, 8, []⟩) "c.png" 1).1.rect = QRectE.nullRect ∧
      (loadImageFromPath stateA (some ⟨8, 8, []⟩) "c.png" 1).1.is_drawing =
        stateA.is_drawing ∧
      (∀ k : Fin 4, k ≠ ⟨1, by omega⟩ →
        (loadImageFromPath stateA (some ⟨8, 8, []⟩) "c.png" 1).1.images k =
          stateA.images k ∧
        (loadImageFromPath stateA (some ⟨8, 8, []⟩) "c.png" 1).1.image_paths k =
          stateA.image_paths k) ∧
      (∀ k : Fin 4, (resetImages stateA true).images k = none ∧
        (resetImages stateA true).image_paths k = "") ∧
      (resetImages stateA true).rect = QRectE.nullRect ∧
      (resetImages stateA true).is_drawing = false :=
  loadImageFromPath_spec stateA ⟨8, 8, []⟩ "c.png" 1 ⟨1, by omega⟩ rfl

/-- Evaluation of `swap_images` in the successful case: both indices in
range and distinct, both panels loaded.  Both slots (image and path) are
exchanged and no status message is shown. -/
lemma swap_images_eq (s : ViewerState) (i j : Int) (fi fj : Fin 4)
    (hfi : (fi.val : Int) = i) (hfj : (fj.val : Int) = j) (hij : i ≠ j)
    (h1 : s.images fi ≠ none) (h2 : s.images fj ≠ none) :
    swap_images s i j =
      ({ s with
          images := fun k => s.images (if k = fi then fj else if k = fj then fi else k),
          image_paths := fun k =>
            s.image_paths (if k = fi then fj else if k = fj then fi else k) }, none) := by
  have hlt1 := fi.isLt
  have hlt2 := fj.isLt
  have hrange : ¬(i < 0 ∨ 4 ≤ i ∨ j < 0 ∨ 4 ≤ j) := by omega
  have hfin1 : (⟨i.toNat, by omega⟩ : Fin 4) = fi := by
    apply Fin.ext
    simp
    omega
  have hfin2 : (⟨j.toNat, by omega⟩ : Fin 4) = fj := by
    apply Fin.ext
    simp
    omega
  have hfij : fi ≠ fj := by
    intro hc
    apply hij
    rw [← hfi, ← hfj, hc]
  have hmiss : ¬(s.images fi = none ∨ s.images fj = none) := by
    push_neg
    exact ⟨h1, h2⟩
  simp only [swap_images, if_neg hij, dif_neg hrange]
  rw [hfin1, hfin2, if_neg hmiss]
  have himg : Function.update (Function.update s.images fi (s.images fj)) fj (s.images fi) =
      fun k => s.images (if k = fi then fj else if k = fj then fi else k) := by
    funext k
    by_cases hk2 : k = fj
    · subst hk2
      simp [Function.update_apply, Ne.symm hfij]
    · by_cases hk1 : k = fi
      · subst hk1
        simp [Function.update_apply, hfij, hk2]
      · simp [Function.update_apply, hk1, hk2]
  have hpath : Function.update (Function.update s.image_paths fi (s.image_paths fj)) fj
        (s.image_paths fi) =
      fun k => s.image_paths (if k = fi then fj else if k = fj then fi else k) := by
    funext k
    by_cases hk2 : k = fj
    · subst hk2
      simp [Function.update_apply, Ne.symm hfij]
    · by_cases hk1 : k = fi
      · subst hk1
        simp [Function.update_apply, hfij, hk2]
      · simp [Function.update_apply, hk1, hk2]
  rw [himg, hpath]

/-- Claim C6, counterexample: `swap_images` with equal indices or an
out-of-range index skips the operation but shows no user-facing status
message (it returns silently), contrary to the claim that each guard case
reports one. -/
theorem swap_images_cex :
    swap_images stateA 0 0 = (stateA, (none : Option String)) ∧
      swap_images stateA (-1) 2 = (stateA, (none : Option String)) :=
  ⟨rfl, rfl⟩

/-- Claim C6 (amended): `swap_images(i, j)` leaves `images` and
`image_paths` unchanged whenever `i = j`, either index is outside `[0,4)`,
or either panel has no loaded image, and never raises; a user-facing status
message is shown only in the missing-image case, while equal or
out-of-range indices return silently with no message; otherwise it
exchanges both the image and the path at the two slots. -/
theorem swap_images_spec (s : ViewerState) (i j : Int) :
    (i = j → swap_images s i j = (s, none)) ∧
      ((i < 0 ∨ 4 ≤ i ∨ j < 0 ∨ 4 ≤ j) → swap_images s i j = (s, none)) ∧
      (∀ fi fj : Fin 4, (fi.val : Int) = i → (fj.val : Int) = j → i ≠ j →
        ((s.images fi = none ∨ s.images fj = none) →
          swap_images s i j =
            (s, some "Cannot swap - one or both panels have no image")) ∧
        (s.images fi ≠ none → s.images fj ≠ none →
          (swap_images s i j).2 = none ∧
          ∀ k : Fin 4,
            (swap_images s i j).1.images k =
              s.images (if k = fi then fj else if k = fj then fi else k) ∧
            (swap_images s i j).1.image_paths k =
              s.image_paths (if k = fi then fj else if k = fj then fi else k))) := by
  refine ⟨?_, ?_, ?_⟩
  · intro h
    simp only [swap_images, if_pos h]
  · intro h
    by_cases hij : i = j
    · simp only [swap_images, if_pos hij]
    · simp only [swap_images, if_neg hij, dif_pos h]
  · intro fi fj hfi hfj hij
    constructor
    · intro hmiss
      have hlt1 := fi.isLt
      have hlt2 := fj.isLt
      have hrange : ¬(i < 0 ∨ 4 ≤ i ∨ j < 0 ∨ 4 ≤ j) := by omega
      have hfin1 : (⟨i.toNat, by omega⟩ : Fin 4) = fi := by
        apply Fin.ext
        simp
        omega
      have hfin2 : (⟨j.toNat, by omega⟩ : Fin 4) = fj := by
        apply Fin.ext
        simp
        omega
      simp only [swap_images, if_neg hij, dif_neg hrange]
      rw [hfin1, hfin2, if_pos hmiss]
    · intro h1 h2
      rw [swap_images_eq s i j fi fj hfi hfj hij h1 h2]
      exact ⟨rfl, fun k => ⟨rfl, rfl⟩⟩

theorem swap_images_spec_witness :
    (swap_images stateA 0 1).2 = none ∧
      (swap_images stateA 0 1).1.images ⟨0, by omega⟩ = stateA.images ⟨1, by omega⟩ ∧
      (swap_images stateA 0 1).1.image_paths ⟨0, by omega⟩ =
        stateA.image_paths ⟨1, by omega⟩ := by
  have h := ((swap_images_spec stateA 0 1).2.2 ⟨0, by omega⟩ ⟨1, by omega⟩
    (by decide) (by decide) (by decide)).2 (by decide) (by decide)
  refine ⟨h.1, ?_, ?_⟩
  · have hk := (h.2 ⟨0, by omega⟩).1
    simpa using hk
  · have hk := (h.2 ⟨0, by omega⟩).2
    simpa using hk

/-- Claim C7: for every pair of distinct in-range panel indices whose
panels both hold loaded images, applying `swap_images` twice in succession
restores `images` and `image_paths` to exactly their original assignment
(swap is an involution). -/
theorem swap_images_involution (s : ViewerState) (i j : Int) (fi fj : Fin 4)
    (hfi : (fi.val : Int) = i) (hfj : (fj.val : Int) = j) (hij : i ≠ j)
    (h1 : s.images fi ≠ none) (h2 : s.images fj ≠ none) :
    ∀ k : Fin 4,
      (swap_images (swap_images s i j).1 i j).1.images k = s.images k ∧
      (swap_images (swap_images s i j).1 i j).1.image_paths k = s.image_paths k := by
  have hfij : fi ≠ fj := by
    intro hc
    apply hij
    rw [← hfi, ← hfj, hc]
  have step1 := swap_images_eq s i j fi fj hfi hfj hij h1 h2
  have hX1 : ((swap_images s i j).1).images fi = s.images fj := by
    rw [step1]
    simp
  have hX2 : ((swap_images s i j).1).images fj = s.images fi := by
    rw [step1]
    simp [Ne.symm hfij]
  have step2 := swap_images_eq (swap_images s i j).1 i j fi fj hfi hfj hij
    (by rw [hX1]; exact h2) (by rw [hX2]; exact h1)
  intro k
  rw [step2]
  dsimp only
  rw [step1]
  dsimp only
  refine ⟨?_, ?_⟩
  · by_cases hk1 : k = fi
    · subst hk1
      simp [Ne.symm hfij]
    · by_cases hk2 : k = fj
      · subst hk2
        simp [Ne.symm hfij, hfij]
      · simp [hk1, hk2]
  · by_cases hk1 : k = fi
    · subst hk1
      simp [Ne.symm hfij]
    · by_cases hk2 : k = fj
      · subst hk2
        simp [Ne.symm hfij, hfij]
      · simp [hk1, hk2]

theorem swap_images_involution_witness :
    (swap_images (swap_images stateA 0 1).1 0 1).1.images ⟨0, by omega⟩ =
        stateA.images ⟨0, by omega⟩ ∧
      (swap_images (swap_images stateA 0 1).1 0 1).1.image_paths ⟨0, by omega⟩ =
        stateA.image_paths ⟨0, by omega⟩ :=
  swap_images_involution stateA 0 1 ⟨0, by omega⟩ ⟨1, by omega⟩
    (by decide) (by decide) (by decide) (by decide) (by decide) ⟨0, by omega⟩

/-- A single selector click preserves the invariant: at most 2 selected
indices, all distinct. -/
lemma onButtonClicked_inv (sel : List Int) (i : Int) (c : Bool)
    (hlen : sel.length ≤ 2) (hnd : sel.Nodup) :
    (onButtonClicked sel i c).length ≤ 2 ∧ (onButtonClicked sel i c).Nodup := by
  cases c with
  | false =>
    simp only [onButtonClicked, Bool.false_eq_true, if_false]
    by_cases hm : i ∈ sel
    · rw [if_pos hm]
      exact ⟨le_trans (List.Sublist.length_le (List.erase_sublist i sel)) hlen,
        List.Nodup.sublist (List.erase_sublist i sel) hnd⟩
    · rw [if_neg hm]
      exact ⟨hlen, hnd⟩
  | true =>
    simp only [onButtonClicked, if_true]
    by_cases hm : i ∈ sel
    · rw [if_pos hm]
      exact ⟨hlen, hnd⟩
    · rw [if_neg hm]
      by_cases h2 : 2 ≤ sel.length
      · rw [if_pos h2]
        have hsub : List.Sublist (sel.drop 1) sel := List.drop_sublist 1 sel
        have hni : i ∉ sel.drop 1 := fun hx => hm (hsub.subset hx)
        refine ⟨?_, ?_⟩
        · simp only [List.length_append, List.length_drop, List.length_singleton]
          omega
        · refine List.Nodup.append (List.Nodup.sublist hsub hnd)
            (List.nodup_singleton i) ?_
          intro a ha hb
          rw [List.mem_singleton] at hb
          subst hb
          exact hni ha
      · rw [if_neg h2]
        refine ⟨?_, ?_⟩
        · simp only [List.length_append, List.length_singleton]
          omega
        · refine List.Nodup.append hnd (List.nodup_singleton i) ?_
          intro a ha hb
          rw [List.mem_singleton] at hb
          subst hb
          exact hm ha

/-- Claim C9: after every sequence of selector click events starting from
the empty selection, `selected_indices` holds at most 2 distinct panel
indices; and checking a third panel `c` while distinct panels `a, b` are
selected evicts the oldest (`a`) and appends `c` (FIFO of size 2). -/
theorem onButtonClicked_fifo (evs : List (Int × Bool)) (a b c : Int)
    (hab : a ≠ b) (hca : c ≠ a) (hcb : c ≠ b) :
    ((evs.foldl (fun sel e => onButtonClicked sel e.1 e.2) []).length ≤ 2 ∧
      (evs.foldl (fun sel e => onButtonClicked sel e.1 e.2) []).Nodup) ∧
      onButtonClicked [a, b] c true = [b, c] := by
  constructor
  · have gen : ∀ (l : List (Int × Bool)) (sel : List Int), sel.length ≤ 2 → sel.Nodup →
        ((l.foldl (fun sel e => onButtonClicked sel e.1 e.2) sel).length ≤ 2 ∧
          (l.foldl (fun sel e => onButtonClicked sel e.1 e.2) sel).Nodup) := by
      intro l
      induction l with
      | nil => exact fun sel h1 h2 => ⟨h1, h2⟩
      | cons e t ih =>
        intro sel h1 h2
        have hstep := onButtonClicked_inv sel e.1 e.2 h1 h2
        exact ih _ hstep.1 hstep.2
    exact gen evs [] (by simp) List.nodup_nil
  · have hm : c ∉ [a, b] := by
      simp [hca, hcb]
    simp only [onButtonClicked, if_true, if_neg hm]
    norm_num

theorem onButtonClicked_fifo_witness :
    (([((0 : Int), true), (1, true), (2, true)].foldl
        (fun sel e => onButtonClicked sel e.1 e.2) []).length ≤ 2 ∧
      ([((0 : Int), true), (1, true), (2, true)].foldl
        (fun sel e => onButtonClicked sel e.1 e.2) []).Nodup) ∧
      onButtonClicked [0, 1] 2 true = [1, 2] :=
  onButtonClicked_fifo [((0 : Int), true), (1, true), (2, true)] 0 1 2
    (by decide) (by decide) (by decide)

/-- Claim C10: for every mode `n ∈ {2,3,4}`, `setComparisonMode n` leaves
every element of `images` and `image_paths` unchanged: panels beyond the
new visible count keep their loaded images in the store, they are merely
not displayed. -/
theorem setComparisonMode_preserves (s : ViewerState) (mode : Int)
    (h : mode = 2 ∨ mode = 3 ∨ mode = 4) :
    ∀ k : Fin 4, (setComparisonMode s mode).images k = s.images k ∧
      (setComparisonMode s mode).image_paths k = s.image_paths k := by
  intro k
  simp only [setComparisonMode, setupLayout]
  split
  · exact ⟨rfl, rfl⟩
  · exact ⟨rfl, rfl⟩

theorem setComparisonMode_preserves_witness :
    (setComparisonMode stateA 4).images ⟨3, by omega⟩ = stateA.images ⟨3, by omega⟩ ∧
      (setComparisonMode stateA 4).image_paths ⟨3, by omega⟩ =
        stateA.image_paths ⟨3, by omega⟩ :=
  setComparisonMode_preserves stateA 4 (by decide) ⟨3, by omega⟩

end PyTools
